import Mathlib

/-!
Shallow embedding of the frequent-batch-auction matching engine
(`src/auction.rs`) and proofs about it.

Modelling choices:
* `BigDecimal` prices are modelled as exact rationals (`ℚ`); the source only
  compares prices, adds two of them and divides by 2, all of which are exact
  on `BigDecimal` and on `ℚ`.
* `u32` quantities are modelled as `Nat`; the source's spec declares overflow
  a fatal invariant breach that well-formed sessions never reach, and every
  subtraction in the source is guarded (`q_star -= order.qty` only under
  `order.qty <= q_star`, `order.qty - q_star` only under `order.qty > q_star`),
  so `Nat` subtraction agrees with the source exactly.
* Rust's `HashMap<BigDecimal, Nat>` is modelled as an association list whose
  `insert` replaces the value of an existing key in place; the source sorts the
  map's entries by `q_max` before using them, which makes the hash-iteration
  order immaterial whenever the `q_max` values are distinct (the case for every
  book considered here).
* `sort_unstable_by` is modelled with `List.insertionSort` over the
  reflexive rendering of the same comparator; the two may differ only on
  elements the comparator ties completely, a freedom the source itself
  leaves unspecified (`sort_unstable_by` gives no order among ties).
* The `while` loop of `intersect_demand_supply` is modelled with explicit
  fuel `|demand| + |supply|`; each iteration strictly increments one of the
  two cursor indices that are bounded by the list lengths, so this fuel is
  never exhausted (`intersectLoop_fuel_irrelevant` below makes this precise).
-/

namespace FBA

/-- `BigDecimal` price, modelled as an exact rational. -/
abbrev Price := ℚ

/-- The `Order` struct of `src/auction.rs`. -/
structure Order where
  qty : Nat
  price : Price
  batches_out : Nat
  cleared : Bool
deriving Repr, DecidableEq

/-- `Order::new` of the source: fresh order with seniority 0, not cleared. -/
def Order.new (price : Price) (qty : Nat) : Order :=
  { qty := qty, price := price, batches_out := 0, cleared := false }

/-- The `Segment` struct of `src/auction.rs`: one point of a cumulative curve. -/
structure Segment where
  price : Price
  q_max : Nat
deriving Repr, DecidableEq

/-- The `BatchReport` enum of `src/auction.rs`. -/
inductive BatchReport where
  | NoTrade : BatchReport
  | Trade (price : Price) (qty : Nat) (cleared_bids cleared_asks : List Order) : BatchReport
deriving Repr, DecidableEq

/-- The bid comparator of `calculate_batch` (price high→low, then
`batches_out` high→low): `a` may come before `b`. -/
def bidLE (a b : Order) : Prop :=
  b.price < a.price ∨ (a.price = b.price ∧ b.batches_out ≤ a.batches_out)

/-- The ask comparator of `calculate_batch` (price low→high, then
`batches_out` high→low): `a` may come before `b`. -/
def askLE (a b : Order) : Prop :=
  a.price < b.price ∨ (a.price = b.price ∧ b.batches_out ≤ a.batches_out)

instance : DecidableRel bidLE := fun a b => by unfold bidLE; exact inferInstance

instance : DecidableRel askLE := fun a b => by unfold askLE; exact inferInstance

instance : IsTotal Order bidLE where
  total a b := by
    unfold bidLE
    rcases lt_trichotomy a.price b.price with h | h | h
    · exact Or.inr (Or.inl h)
    · rcases Nat.le_total b.batches_out a.batches_out with hb | hb
      · exact Or.inl (Or.inr ⟨h, hb⟩)
      · exact Or.inr (Or.inr ⟨h.symm, hb⟩)
    · exact Or.inl (Or.inl h)

instance : IsTrans Order bidLE where
  trans a b c hab hbc := by
    unfold bidLE at *
    rcases hab with h₁ | ⟨e₁, s₁⟩ <;> rcases hbc with h₂ | ⟨e₂, s₂⟩
    · exact Or.inl (h₂.trans h₁)
    · exact Or.inl (e₂ ▸ h₁)
    · exact Or.inl (e₁ ▸ h₂)
    · exact Or.inr ⟨e₁.trans e₂, s₂.trans s₁⟩

instance : IsTotal Order askLE where
  total a b := by
    unfold askLE
    rcases lt_trichotomy a.price b.price with h | h | h
    · exact Or.inl (Or.inl h)
    · rcases Nat.le_total b.batches_out a.batches_out with hb | hb
      · exact Or.inl (Or.inr ⟨h, hb⟩)
      · exact Or.inr (Or.inr ⟨h.symm, hb⟩)
    · exact Or.inr (Or.inl h)

instance : IsTrans Order askLE where
  trans a b c hab hbc := by
    unfold askLE at *
    rcases hab with h₁ | ⟨e₁, s₁⟩ <;> rcases hbc with h₂ | ⟨e₂, s₂⟩
    · exact Or.inl (h₁.trans h₂)
    · exact Or.inl (e₂ ▸ h₁)
    · exact Or.inl (e₁ ▸ h₂)
    · exact Or.inr ⟨e₁.trans e₂, s₂.trans s₁⟩

/-- The `bids.sort_unstable_by(..)` call of `calculate_batch`. -/
def sortBids (bids : List Order) : List Order := List.insertionSort bidLE bids

/-- The `asks.sort_unstable_by(..)` call of `calculate_batch`. -/
def sortAsks (asks : List Order) : List Order := List.insertionSort askLE asks

/-- `HashMap::insert`: replace the value at an existing key, else add the entry. -/
def insertAssoc : List (Price × Nat) → Price → Nat → List (Price × Nat)
  | [], k, v => [(k, v)]
  | (k', v') :: m, k, v => if k' = k then (k, v) :: m else (k', v') :: insertAssoc m k v

/-- One iteration of the order walk in `orders_to_curve_segments`:
`max_q += order.qty; segments.insert(order.price, max_q)`. -/
def curveStep (acc : List (Price × Nat) × Nat) (o : Order) : List (Price × Nat) × Nat :=
  (insertAssoc acc.1 o.price (acc.2 + o.qty), acc.2 + o.qty)

/-- The map built by the `for order in orders` loop of `orders_to_curve_segments`. -/
def buildSegs (orders : List Order) : List (Price × Nat) :=
  (orders.foldl curveStep ([], 0)).1

/-- The comparator of `segments.sort_unstable_by(|s1, s2| s1.q_max.cmp(&s2.q_max))`. -/
def segLE (s₁ s₂ : Segment) : Prop := s₁.q_max ≤ s₂.q_max

instance : DecidableRel segLE := fun s₁ s₂ => by unfold segLE; exact inferInstance

instance : IsTotal Segment segLE where
  total s₁ s₂ := Nat.le_total s₁.q_max s₂.q_max

instance : IsTrans Segment segLE where
  trans _ _ _ h₁ h₂ := Nat.le_trans h₁ h₂

/-- `orders_to_curve_segments` of `src/auction.rs`. -/
def orders_to_curve_segments (orders : List Order) : List Segment :=
  List.insertionSort segLE ((buildSegs orders).map (fun pv => ⟨pv.1, pv.2⟩))

/-- Out-of-bounds placeholder for list indexing; every index the source
dereferences is in bounds (proved below), so it is never consulted. -/
def dummySeg : Segment := ⟨0, 0⟩

/-- The `while` loop of `intersect_demand_supply`, with explicit fuel.
State `(i, j)` are `idx_demand, idx_supply`, `(i', j')` are
`idx_next_demand, idx_next_supply`, `q` is `q_star`. -/
def intersectLoop (D S : List Segment) : Nat → Nat → Nat → Nat → Nat → Nat → Nat × Nat × Nat
  | 0, i, j, _, _, q => (i, j, q)
  | fuel + 1, i, j, i', j', q =>
    if i' < D.length ∧ j' < S.length then
      if (D.getD i' dummySeg).price < (S.getD j' dummySeg).price then (i, j, q)
      else if (D.getD i' dummySeg).q_max < (S.getD j' dummySeg).q_max then
        intersectLoop D S fuel i' j' (i' + 1) j'
          (min (D.getD i' dummySeg).q_max (S.getD j' dummySeg).q_max)
      else
        intersectLoop D S fuel i' j' i' (j' + 1)
          (min (D.getD i' dummySeg).q_max (S.getD j' dummySeg).q_max)
    else (i, j, q)

/-- `intersect_demand_supply` of `src/auction.rs`. -/
def intersect_demand_supply (demand supply : List Segment) : Option (Price × Nat) :=
  if demand.isEmpty || supply.isEmpty then none
  else if (demand.getD 0 dummySeg).price < (supply.getD 0 dummySeg).price then none
  else
    some (((demand.getD
          (intersectLoop demand supply (demand.length + supply.length) 0 0 0 0 0).1
          dummySeg).price
        + (supply.getD
          (intersectLoop demand supply (demand.length + supply.length) 0 0 0 0 0).2.1
          dummySeg).price) / 2,
      (intersectLoop demand supply (demand.length + supply.length) 0 0 0 0 0).2.2)

/-- The bid-side predicate `|bid_price, price| bid_price >= price`. -/
def bid_price_predicate (bid_price price : Price) : Bool := decide (price ≤ bid_price)

/-- The ask-side predicate `|ask_price, price| ask_price <= price`. -/
def ask_price_predicate (ask_price price : Price) : Bool := decide (ask_price ≤ price)

/-- `clear_orders` of `src/auction.rs`.  Returns the updated order list
(the source mutates it in place) together with the snapshots of fully
cleared orders. -/
def clear_orders (price_predicate : Price → Price → Bool) (p_star : Price) :
    List Order → Nat → List Order × List Order
  | [], _ => ([], [])
  | o :: rest, q_star =>
    if price_predicate o.price p_star then
      if o.qty ≤ q_star then
        ({ o with cleared := true } :: (clear_orders price_predicate p_star rest (q_star - o.qty)).1,
         { o with cleared := true } :: (clear_orders price_predicate p_star rest (q_star - o.qty)).2)
      else ({ o with qty := o.qty - q_star } :: rest, [])
    else (o :: rest, [])

/-- `calculate_batch` of `src/auction.rs`.  Returns the report together with
the two order lists as left behind in the book (the source mutates them
through `&mut Vec<Order>`). -/
def calculate_batch (bids asks : List Order) : BatchReport × List Order × List Order :=
  match intersect_demand_supply (orders_to_curve_segments (sortBids bids))
      (orders_to_curve_segments (sortAsks asks)) with
  | none => (BatchReport.NoTrade, sortBids bids, sortAsks asks)
  | some (p_star, q_star) =>
    (BatchReport.Trade p_star q_star
        (clear_orders bid_price_predicate p_star (sortBids bids) q_star).2
        (clear_orders ask_price_predicate p_star (sortAsks asks) q_star).2,
      ((clear_orders bid_price_predicate p_star (sortBids bids) q_star).1).filter
        (fun o => !o.cleared),
      ((clear_orders ask_price_predicate p_star (sortAsks asks) q_star).1).filter
        (fun o => !o.cleared))

/-- Total quantity carried by a list of orders. -/
def sumQty (orders : List Order) : Nat := (orders.map Order.qty).sum

/-- Reference recursion for the map built by `buildSegs` on a price-grouped
order list: `p` is the price of the group currently being accumulated and `c`
the cumulative quantity through that group so far.  Used only to state and
prove properties of `buildSegs`; `buildSegs_eq_runPending` ties the two. -/
def runPending (p : Price) (c : Nat) : List Order → List (Price × Nat)
  | [] => [(p, c)]
  | o :: rest =>
    if o.price = p then runPending p (c + o.qty) rest
    else (p, c) :: runPending o.price (c + o.qty) rest

/-- The S7 bid book of the source's `calculate_batch_with_trades_correctly` test. -/
def S7bids : List Order :=
  [Order.new 112 2, Order.new 111.76 21, Order.new 111.45 200, Order.new 111.35 100]

/-- The S7 ask book of the source's `calculate_batch_with_trades_correctly` test. -/
def S7asks : List Order :=
  [Order.new 110 2, Order.new 111.32 21, Order.new 111.45 100, Order.new 112.35 100]

/-! ### Sorting facts -/

theorem sortBids_perm (bids : List Order) : List.Perm (sortBids bids) bids :=
  List.perm_insertionSort bidLE bids

theorem sortAsks_perm (asks : List Order) : List.Perm (sortAsks asks) asks :=
  List.perm_insertionSort askLE asks

/-- After the bid sort, prices weakly decrease along the list. -/
theorem sortBids_sorted (bids : List Order) :
    List.Pairwise (fun a b : Order => b.price = a.price ∨ b.price < a.price) (sortBids bids) := by
  refine (List.sorted_insertionSort bidLE bids).imp ?_
  intro a b hab
  rcases hab with h₁ | ⟨h₁, _⟩
  · exact Or.inr h₁
  · exact Or.inl h₁.symm

/-- After the ask sort, prices weakly increase along the list. -/
theorem sortAsks_sorted (asks : List Order) :
    List.Pairwise (fun a b : Order => b.price = a.price ∨ b.price > a.price) (sortAsks asks) := by
  refine (List.sorted_insertionSort askLE asks).imp ?_
  intro a b hab
  rcases hab with h₁ | ⟨h₁, _⟩
  · exact Or.inr h₁
  · exact Or.inl h₁.symm

/-! ### The curve builder

Facts about `buildSegs`/`runPending`, generic in the strict price order `r`
(`r = (· < ·)` matches the descending bid sort, `r = (· > ·)` the ascending
ask sort: in both cases, `a` earlier than `b` in the sort means
`b.price = a.price ∨ r b.price a.price`). -/

theorem insertAssoc_of_not_mem {m : List (Price × Nat)} {k : Price} (v : Nat)
    (hk : ∀ e ∈ m, e.1 ≠ k) : insertAssoc m k v = m ++ [(k, v)] := by
  induction m with
  | nil => rfl
  | cons e m ih =>
    obtain ⟨k', v'⟩ := e
    simp only [insertAssoc]
    rw [if_neg (hk (k', v') (by simp)), ih (fun e he => hk e (by simp [he]))]
    simp

theorem insertAssoc_append {m : List (Price × Nat)} {k : Price} {w : Nat} (v : Nat)
    (hk : ∀ e ∈ m, e.1 ≠ k) : insertAssoc (m ++ [(k, w)]) k v = m ++ [(k, v)] := by
  induction m with
  | nil => simp [insertAssoc]
  | cons e m ih =>
    obtain ⟨k', v'⟩ := e
    simp only [List.cons_append, insertAssoc, List.append_eq]
    rw [if_neg (hk (k', v') (by simp)), ih (fun e he => hk e (by simp [he]))]

section CurveGeneric

variable (r : Price → Price → Prop)

/-- The order walk of `orders_to_curve_segments`, started just after a group
head `(p, c)` was inserted, extends the map exactly as `runPending` says:
earlier groups are left alone, the pending group is accumulated in place, and
later groups are appended. -/
theorem foldl_curveStep_eq (hirr : ∀ a : Price, ¬ r a a)
    (htrans : ∀ {a b c : Price}, r a b → r b c → r a c) (orders : List Order) :
    ∀ (m : List (Price × Nat)) (p : Price) (c : Nat),
      (∀ e ∈ m, r p e.1) →
      (∀ o ∈ orders, o.price = p ∨ r o.price p) →
      List.Pairwise (fun a b : Order => b.price = a.price ∨ r b.price a.price) orders →
      orders.foldl curveStep (m ++ [(p, c)], c) = (m ++ runPending p c orders, c + sumQty orders) := by
  induction orders with
  | nil => intro m p c _ _ _; simp [runPending, sumQty]
  | cons o rest ih =>
    intro m p c hm hbelow hsorted
    have hhead : ∀ b ∈ rest, b.price = o.price ∨ r b.price o.price :=
      (List.pairwise_cons.mp hsorted).1
    have hostep : curveStep (m ++ [(p, c)], c) o
        = (insertAssoc (m ++ [(p, c)]) o.price (c + o.qty), c + o.qty) := rfl
    by_cases ho : o.price = p
    · have hins : insertAssoc (m ++ [(p, c)]) o.price (c + o.qty) = m ++ [(p, c + o.qty)] := by
        rw [ho]
        exact insertAssoc_append _ (fun e he hep => hirr p (hep ▸ hm e he))
      rw [List.foldl_cons, hostep, hins,
        ih m p (c + o.qty) hm (fun o' ho' => ho ▸ hhead o' ho') hsorted.of_cons]
      simp [runPending, ho, sumQty, Nat.add_assoc]
    · have hro : r o.price p := (hbelow o (by simp)).resolve_left ho
      have hins : insertAssoc (m ++ [(p, c)]) o.price (c + o.qty)
          = (m ++ [(p, c)]) ++ [(o.price, c + o.qty)] := by
        apply insertAssoc_of_not_mem
        intro e he
        rcases List.mem_append.mp he with hem | hep
        · intro h1
          have := htrans hro (hm e hem)
          rw [h1] at this
          exact hirr _ this
        · intro h1
          simp only [List.mem_singleton] at hep
          rw [hep] at h1
          exact ho h1.symm
      have hm' : ∀ e ∈ m ++ [(p, c)], r o.price e.1 := by
        intro e he
        rcases List.mem_append.mp he with hem | hep
        · exact htrans hro (hm e hem)
        · simp only [List.mem_singleton] at hep
          rw [hep]
          exact hro
      rw [List.foldl_cons, hostep, hins,
        ih (m ++ [(p, c)]) o.price (c + o.qty) hm' hhead hsorted.of_cons]
      simp [runPending, ho, sumQty, Nat.add_assoc]

/-- On a price-sorted nonempty order list, the map of `buildSegs` is exactly
`runPending` started at the head order's group. -/
theorem buildSegs_eq_runPending (hirr : ∀ a : Price, ¬ r a a)
    (htrans : ∀ {a b c : Price}, r a b → r b c → r a c) (o : Order) (rest : List Order)
    (hsorted : List.Pairwise (fun a b : Order => b.price = a.price ∨ r b.price a.price)
      (o :: rest)) :
    buildSegs (o :: rest) = runPending o.price o.qty rest := by
  unfold buildSegs
  rw [List.foldl_cons]
  have h0 : curveStep ([], (0 : Nat)) o = ([] ++ [(o.price, 0 + o.qty)], 0 + o.qty) := by
    simp [curveStep, insertAssoc]
  rw [h0, foldl_curveStep_eq r hirr htrans rest [] o.price (0 + o.qty) (by simp)
    (List.pairwise_cons.mp hsorted).1 hsorted.of_cons]
  simp

end CurveGeneric

theorem sumQty_nil : sumQty [] = 0 := rfl

theorem sumQty_cons (o : Order) (l : List Order) : sumQty (o :: l) = o.qty + sumQty l := by
  simp [sumQty]

theorem runPending_ne_nil (p : Price) (c : Nat) (orders : List Order) :
    runPending p c orders ≠ [] := by
  induction orders generalizing p c with
  | nil => simp [runPending]
  | cons o rest ih =>
    rw [runPending]
    by_cases ho : o.price = p <;> simp [ho, ih]

theorem runPending_head (p : Price) (c : Nat) (orders : List Order) :
    ∃ v, (runPending p c orders).head? = some (p, v) ∧ c ≤ v := by
  induction orders generalizing p c with
  | nil => exact ⟨c, rfl, Nat.le_refl c⟩
  | cons o rest ih =>
    rw [runPending]
    by_cases ho : o.price = p
    · rw [if_pos ho]
      obtain ⟨v, hv, hle⟩ := ih p (c + o.qty)
      exact ⟨v, hv, Nat.le_trans (Nat.le_add_right c o.qty) hle⟩
    · rw [if_neg ho]
      exact ⟨c, rfl, Nat.le_refl c⟩

/-- The segment prices of `runPending` are the traversed prices with adjacent
repeats collapsed. -/
theorem runPending_map_fst (p : Price) (c : Nat) (orders : List Order) :
    (runPending p c orders).map Prod.fst
      = List.destutter (· ≠ ·) (p :: orders.map Order.price) := by
  induction orders generalizing p c with
  | nil => simp [runPending, List.destutter_singleton]
  | cons o rest ih =>
    rw [runPending, List.map_cons, List.destutter_cons_cons]
    by_cases ho : o.price = p
    · rw [if_pos ho, if_neg (by simp [ho]), ih, List.destutter_cons']
    · rw [if_neg ho, if_pos (Ne.symm ho), List.map_cons, ih, List.destutter_cons']

theorem runPending_snd_ge (p : Price) (c : Nat) (orders : List Order) :
    ∀ e ∈ runPending p c orders, c ≤ e.2 := by
  induction orders generalizing p c with
  | nil =>
    intro e he
    rw [runPending, List.mem_singleton] at he
    rw [he]
  | cons o rest ih =>
    intro e he
    rw [runPending] at he
    by_cases ho : o.price = p
    · rw [if_pos ho] at he
      exact Nat.le_trans (Nat.le_add_right c o.qty) (ih p (c + o.qty) e he)
    · rw [if_neg ho, List.mem_cons] at he
      rcases he with he | he
      · rw [he]
      · exact Nat.le_trans (Nat.le_add_right c o.qty) (ih o.price (c + o.qty) e he)

/-- With positive quantities, cumulative values strictly increase along
`runPending`. -/
theorem runPending_snd_chain (p : Price) (c : Nat) (orders : List Order)
    (hq : ∀ o ∈ orders, 0 < o.qty) :
    List.Chain' (· < ·) ((runPending p c orders).map Prod.snd) := by
  induction orders generalizing p c with
  | nil => simp [runPending]
  | cons o rest ih =>
    rw [runPending]
    by_cases ho : o.price = p
    · rw [if_pos ho]
      exact ih p (c + o.qty) (fun o' ho' => hq o' (by simp [ho']))
    · rw [if_neg ho, List.map_cons]
      refine List.chain'_cons'.mpr ⟨?_, ih o.price (c + o.qty) (fun o' ho' => hq o' (by simp [ho']))⟩
      intro y hy
      obtain ⟨v, hv, hle⟩ := runPending_head o.price (c + o.qty) rest
      rw [List.head?_map, hv] at hy
      simp only [Option.map_some', Option.mem_def, Option.some.injEq] at hy
      have h1 : c < c + o.qty := Nat.lt_add_of_pos_right (hq o (by simp))
      exact Nat.lt_of_lt_of_le h1 (hy ▸ hle)

/-- The final cumulative value of `runPending` is the total input quantity. -/
theorem runPending_getLast (p : Price) (c : Nat) (orders : List Order) :
    ((runPending p c orders).map Prod.snd).getLast? = some (c + sumQty orders) := by
  induction orders generalizing p c with
  | nil => simp [runPending, sumQty]
  | cons o rest ih =>
    rw [runPending]
    by_cases ho : o.price = p
    · rw [if_pos ho, ih, sumQty_cons, Nat.add_assoc]
    · rw [if_neg ho, List.map_cons]
      obtain ⟨hd, tl, htl⟩ :=
        List.exists_cons_of_ne_nil
          (fun hnil => runPending_ne_nil o.price (c + o.qty) rest (List.map_eq_nil_iff.mp hnil))
      rw [htl, List.getLast?_cons_cons, ← htl, ih, sumQty_cons, Nat.add_assoc]

section CurveGeneric

variable (r : Price → Price → Prop)

/-- Every price in the image of `runPending` is the pending price or below it. -/
theorem runPending_keys (htrans : ∀ {a b c : Price}, r a b → r b c → r a c)
    (orders : List Order) :
    ∀ (p : Price) (c : Nat),
      (∀ o ∈ orders, o.price = p ∨ r o.price p) →
      List.Pairwise (fun a b : Order => b.price = a.price ∨ r b.price a.price) orders →
      ∀ e ∈ runPending p c orders, e.1 = p ∨ r e.1 p := by
  induction orders with
  | nil =>
    intro p c _ _ e he
    rw [runPending, List.mem_singleton] at he
    exact Or.inl (by rw [he])
  | cons o rest ih =>
    intro p c hbelow hsorted e he
    rw [runPending] at he
    by_cases ho : o.price = p
    · rw [if_pos ho] at he
      refine ih p (c + o.qty) (fun o' ho' => hbelow o' (by simp [ho'])) hsorted.of_cons e he
    · rw [if_neg ho, List.mem_cons] at he
      have hro : r o.price p := (hbelow o (by simp)).resolve_left ho
      rcases he with he | he
      · exact Or.inl (by rw [he])
      · rcases ih o.price (c + o.qty) (List.pairwise_cons.mp hsorted).1 hsorted.of_cons e he with
          h1 | h1
        · exact Or.inr (h1 ▸ hro)
        · exact Or.inr (htrans h1 hro)

/-- Prices strictly fall (in the sense of `r`) along the `runPending` output. -/
theorem runPending_fst_chain (orders : List Order) :
    ∀ (p : Price) (c : Nat),
      (∀ o ∈ orders, o.price = p ∨ r o.price p) →
      List.Pairwise (fun a b : Order => b.price = a.price ∨ r b.price a.price) orders →
      List.Chain' (fun a b => r b a) ((runPending p c orders).map Prod.fst) := by
  induction orders with
  | nil => intro p c _ _; simp [runPending]
  | cons o rest ih =>
    intro p c hbelow hsorted
    rw [runPending]
    by_cases ho : o.price = p
    · rw [if_pos ho]
      exact ih p (c + o.qty) (fun o' ho' => hbelow o' (by simp [ho'])) hsorted.of_cons
    · rw [if_neg ho, List.map_cons]
      have hro : r o.price p := (hbelow o (by simp)).resolve_left ho
      refine List.chain'_cons'.mpr
        ⟨?_, ih o.price (c + o.qty) (List.pairwise_cons.mp hsorted).1 hsorted.of_cons⟩
      intro y hy
      obtain ⟨v, hv, _⟩ := runPending_head o.price (c + o.qty) rest
      rw [List.head?_map, hv] at hy
      simp only [Option.map_some', Option.mem_def, Option.some.injEq] at hy
      exact hy ▸ hro

variable [DecidableRel r]

/-- Each cumulative value of `runPending` is bounded by the quantity resting
at prices that are eligible at its own price level. -/
theorem runPending_le_takeWhile (htrans : ∀ {a b c : Price}, r a b → r b c → r a c)
    (orders : List Order) :
    ∀ (p : Price) (c : Nat),
      (∀ o ∈ orders, o.price = p ∨ r o.price p) →
      List.Pairwise (fun a b : Order => b.price = a.price ∨ r b.price a.price) orders →
      ∀ e ∈ runPending p c orders,
        e.2 ≤ c + sumQty (orders.takeWhile
          (fun o => decide (o.price = e.1) || decide (r e.1 o.price))) := by
  induction orders with
  | nil =>
    intro p c _ _ e he
    rw [runPending, List.mem_singleton] at he
    rw [he]
    exact Nat.le_add_right c _
  | cons o rest ih =>
    intro p c hbelow hsorted e he
    rw [runPending] at he
    by_cases ho : o.price = p
    · rw [if_pos ho] at he
      have hkey : e.1 = p ∨ r e.1 p := by
        refine runPending_keys r htrans rest p (c + o.qty) ?_ hsorted.of_cons e he
        intro o' ho'
        exact hbelow o' (by simp [ho'])
      have hfo : (decide (o.price = e.1) || decide (r e.1 o.price)) = true := by
        rcases hkey with h1 | h1
        · simp [ho, h1.symm]
        · simp [ho, h1]
      simp only [List.takeWhile_cons, hfo, if_true, sumQty_cons]
      rw [← Nat.add_assoc]
      exact ih p (c + o.qty) (fun o' ho' => hbelow o' (by simp [ho'])) hsorted.of_cons e he
    · rw [if_neg ho, List.mem_cons] at he
      rcases he with he | he
      · rw [he]
        exact Nat.le_add_right c _
      · have hkey : e.1 = o.price ∨ r e.1 o.price := by
          refine runPending_keys r htrans rest o.price (c + o.qty) ?_ hsorted.of_cons e he
          exact (List.pairwise_cons.mp hsorted).1
        have hfo : (decide (o.price = e.1) || decide (r e.1 o.price)) = true := by
          rcases hkey with h1 | h1
          · simp [h1.symm]
          · simp [h1]
        simp only [List.takeWhile_cons, hfo, if_true, sumQty_cons]
        rw [← Nat.add_assoc]
        exact ih o.price (c + o.qty) (List.pairwise_cons.mp hsorted).1 hsorted.of_cons e he

end CurveGeneric

/-! ### From `buildSegs` to `orders_to_curve_segments` -/

theorem curve_mem_buildSegs (orders : List Order) (s : Segment)
    (hs : s ∈ orders_to_curve_segments orders) : (s.price, s.q_max) ∈ buildSegs orders := by
  rw [orders_to_curve_segments, List.mem_insertionSort] at hs
  obtain ⟨pv, hpv, rfl⟩ := List.mem_map.mp hs
  simpa using hpv

/-- The segment list handed to the intersector is always sorted by `q_max`. -/
theorem curve_sorted (orders : List Order) :
    List.Pairwise segLE (orders_to_curve_segments orders) :=
  List.sorted_insertionSort segLE _

/-- With positive quantities on a price-sorted book, every curve segment
carries at least one unit. -/
theorem curve_q_max_pos (r : Price → Price → Prop) (hirr : ∀ a : Price, ¬ r a a)
    (htrans : ∀ {a b c : Price}, r a b → r b c → r a c) (orders : List Order)
    (hpos : ∀ o ∈ orders, 0 < o.qty)
    (hsorted : List.Pairwise (fun a b : Order => b.price = a.price ∨ r b.price a.price) orders) :
    ∀ s ∈ orders_to_curve_segments orders, 1 ≤ s.q_max := by
  intro s hs
  have hmem := curve_mem_buildSegs orders s hs
  cases orders with
  | nil => simp [buildSegs] at hmem
  | cons o rest =>
    rw [buildSegs_eq_runPending r hirr htrans o rest hsorted] at hmem
    have h2 := runPending_snd_ge o.price o.qty rest (s.price, s.q_max) hmem
    have h1 := hpos o (by simp)
    exact Nat.le_trans h1 h2

/-- Each curve segment's `q_max` is bounded by the book volume resting at
prices eligible at the segment's own price. -/
theorem curve_le_takeWhile (r : Price → Price → Prop) [DecidableRel r]
    (hirr : ∀ a : Price, ¬ r a a)
    (htrans : ∀ {a b c : Price}, r a b → r b c → r a c) (orders : List Order)
    (hsorted : List.Pairwise (fun a b : Order => b.price = a.price ∨ r b.price a.price) orders) :
    ∀ s ∈ orders_to_curve_segments orders,
      s.q_max ≤ sumQty (orders.takeWhile
        (fun o => decide (o.price = s.price) || decide (r s.price o.price))) := by
  intro s hs
  have hmem := curve_mem_buildSegs orders s hs
  cases orders with
  | nil => simp [buildSegs] at hmem
  | cons o rest =>
    rw [buildSegs_eq_runPending r hirr htrans o rest hsorted] at hmem
    have hle := runPending_le_takeWhile r htrans rest o.price o.qty
      (List.pairwise_cons.mp hsorted).1 hsorted.of_cons (s.price, s.q_max) hmem
    have hkey := runPending_keys r htrans rest o.price o.qty
      (List.pairwise_cons.mp hsorted).1 hsorted.of_cons (s.price, s.q_max) hmem
    simp only at hle hkey
    have hfo : (decide (o.price = s.price) || decide (r s.price o.price)) = true := by
      rcases hkey with h1 | h1
      · simp [h1.symm]
      · simp [h1]
    simp only [List.takeWhile_cons, hfo, if_true, sumQty_cons]
    exact hle

/-- On a price-sorted book with positive quantities, the final `q_max` sort of
`orders_to_curve_segments` is the identity: the map is already emitted in
strictly increasing `q_max` order. -/
theorem curve_eq_of_sorted (r : Price → Price → Prop) (hirr : ∀ a : Price, ¬ r a a)
    (htrans : ∀ {a b c : Price}, r a b → r b c → r a c) (orders : List Order)
    (hpos : ∀ o ∈ orders, 0 < o.qty)
    (hsorted : List.Pairwise (fun a b : Order => b.price = a.price ∨ r b.price a.price) orders) :
    orders_to_curve_segments orders = (buildSegs orders).map (fun pv => ⟨pv.1, pv.2⟩) := by
  cases orders with
  | nil => rfl
  | cons o rest =>
    unfold orders_to_curve_segments
    apply List.Sorted.insertionSort_eq
    rw [buildSegs_eq_runPending r hirr htrans o rest hsorted]
    have hchain := runPending_snd_chain o.price o.qty rest (fun o' h => hpos o' (by simp [h]))
    have hpair : List.Pairwise (fun x y : Price × Nat => x.2 < y.2)
        (runPending o.price o.qty rest) := by
      haveI : IsTrans (Price × Nat) (fun x y : Price × Nat => x.2 < y.2) :=
        ⟨fun _ _ _ h₁ h₂ => lt_trans h₁ h₂⟩
      exact List.chain'_iff_pairwise.mp ((List.chain'_map _).mp hchain)
    exact List.pairwise_map.mpr (hpair.imp fun h => le_of_lt h)

/-! ### The intersector loop -/

theorem getD_q_mono (l : List Segment) (hl : List.Pairwise segLE l) {a b : Nat}
    (hab : a ≤ b) (hb : b < l.length) :
    (l.getD a dummySeg).q_max ≤ (l.getD b dummySeg).q_max := by
  have ha : a < l.length := Nat.lt_of_le_of_lt hab hb
  rcases Nat.eq_or_lt_of_le hab with rfl | hlt
  · exact Nat.le_refl _
  · have h := List.pairwise_iff_get.mp hl ⟨a, ha⟩ ⟨b, hb⟩ hlt
    rw [List.getD_eq_getElem?_getD, List.getD_eq_getElem?_getD,
      List.getElem?_eq_getElem ha, List.getElem?_eq_getElem hb]
    exact h

theorem getD_mem (l : List Segment) {n : Nat} (h : n < l.length) :
    l.getD n dummySeg ∈ l := by
  rw [List.getD_eq_getElem?_getD, List.getElem?_eq_getElem h]
  exact List.get_mem l n h

theorem intersectLoop_inbounds (D S : List Segment) :
    ∀ (fuel i j i' j' q : Nat), i < D.length → j < S.length →
      (intersectLoop D S fuel i j i' j' q).1 < D.length ∧
      (intersectLoop D S fuel i j i' j' q).2.1 < S.length := by
  intro fuel
  induction fuel with
  | zero => intro i j i' j' q hi hj; exact ⟨hi, hj⟩
  | succ fuel ih =>
    intro i j i' j' q hi hj
    rw [intersectLoop]
    by_cases hcond : i' < D.length ∧ j' < S.length
    · rw [if_pos hcond]
      by_cases hbr : (D.getD i' dummySeg).price < (S.getD j' dummySeg).price
      · rw [if_pos hbr]; exact ⟨hi, hj⟩
      · rw [if_neg hbr]
        by_cases hqm : (D.getD i' dummySeg).q_max < (S.getD j' dummySeg).q_max
        · rw [if_pos hqm]; exact ih i' j' (i' + 1) j' _ hcond.1 hcond.2
        · rw [if_neg hqm]; exact ih i' j' i' (j' + 1) _ hcond.1 hcond.2
    · rw [if_neg hcond]; exact ⟨hi, hj⟩

/-- The fuel of the modelled `while` loop is irrelevant once it covers the
remaining cursor headroom `(|D| - i') + (|S| - j')`: every iteration strictly
shrinks that bound, so the loop's natural exit always fires first.  In
particular the `|D| + |S|` fuel used by `intersect_demand_supply` never cuts
the loop short, and the model agrees with the unbounded source loop. -/
theorem intersectLoop_fuel_irrelevant (D S : List Segment) :
    ∀ (fuel i j i' j' q : Nat),
      (D.length - i') + (S.length - j') ≤ fuel →
      intersectLoop D S (fuel + 1) i j i' j' q = intersectLoop D S fuel i j i' j' q := by
  intro fuel
  induction fuel with
  | zero =>
    intro i j i' j' q hb
    have hcond : ¬ (i' < D.length ∧ j' < S.length) := by
      rintro ⟨h1, h2⟩
      omega
    conv_lhs => rw [intersectLoop]
    rw [if_neg hcond, intersectLoop]
  | succ fuel ih =>
    intro i j i' j' q hb
    conv_lhs => rw [intersectLoop]
    conv_rhs => rw [intersectLoop]
    by_cases hcond : i' < D.length ∧ j' < S.length
    · rw [if_pos hcond, if_pos hcond]
      by_cases hbr : (D.getD i' dummySeg).price < (S.getD j' dummySeg).price
      · rw [if_pos hbr, if_pos hbr]
      · rw [if_neg hbr, if_neg hbr]
        by_cases hqm : (D.getD i' dummySeg).q_max < (S.getD j' dummySeg).q_max
        · rw [if_pos hqm, if_pos hqm]
          exact ih i' j' (i' + 1) j' _ (by omega)
        · rw [if_neg hqm, if_neg hqm]
          exact ih i' j' i' (j' + 1) _ (by omega)
    · rw [if_neg hcond, if_neg hcond]

/-- The loop invariant of the sweep: the last accepted pair is in bounds, its
supply price does not exceed its demand price, and `q_star` is exactly the
`min` of the two accepted `q_max` values. -/
theorem intersectLoop_invariant (D S : List Segment) :
    ∀ (fuel i j i' j' q : Nat), i < D.length → j < S.length →
      ¬ (D.getD i dummySeg).price < (S.getD j dummySeg).price →
      q = min (D.getD i dummySeg).q_max (S.getD j dummySeg).q_max →
      (intersectLoop D S fuel i j i' j' q).1 < D.length ∧
      (intersectLoop D S fuel i j i' j' q).2.1 < S.length ∧
      ¬ (D.getD (intersectLoop D S fuel i j i' j' q).1 dummySeg).price <
          (S.getD (intersectLoop D S fuel i j i' j' q).2.1 dummySeg).price ∧
      (intersectLoop D S fuel i j i' j' q).2.2 =
        min (D.getD (intersectLoop D S fuel i j i' j' q).1 dummySeg).q_max
          (S.getD (intersectLoop D S fuel i j i' j' q).2.1 dummySeg).q_max := by
  intro fuel
  induction fuel with
  | zero => intro i j i' j' q hi hj hpr hq; exact ⟨hi, hj, hpr, hq⟩
  | succ fuel ih =>
    intro i j i' j' q hi hj hpr hq
    rw [intersectLoop]
    by_cases hcond : i' < D.length ∧ j' < S.length
    · rw [if_pos hcond]
      by_cases hbr : (D.getD i' dummySeg).price < (S.getD j' dummySeg).price
      · rw [if_pos hbr]; exact ⟨hi, hj, hpr, hq⟩
      · rw [if_neg hbr]
        by_cases hqm : (D.getD i' dummySeg).q_max < (S.getD j' dummySeg).q_max
        · rw [if_pos hqm]; exact ih i' j' (i' + 1) j' _ hcond.1 hcond.2 hbr rfl
        · rw [if_neg hqm]; exact ih i' j' i' (j' + 1) _ hcond.1 hcond.2 hbr rfl
    · rw [if_neg hcond]; exact ⟨hi, hj, hpr, hq⟩

/-- With both curves sorted by `q_max`, the final `q_star` never falls below
the `q_star` already accumulated. -/
theorem intersectLoop_q_mono (D S : List Segment) (hD : List.Pairwise segLE D)
    (hS : List.Pairwise segLE S) :
    ∀ (fuel i j i' j' q : Nat),
      (i' < D.length → q ≤ (D.getD i' dummySeg).q_max) →
      (j' < S.length → q ≤ (S.getD j' dummySeg).q_max) →
      q ≤ (intersectLoop D S fuel i j i' j' q).2.2 := by
  intro fuel
  induction fuel with
  | zero => intro i j i' j' q _ _; exact Nat.le_refl q
  | succ fuel ih =>
    intro i j i' j' q hqd hqs
    rw [intersectLoop]
    by_cases hcond : i' < D.length ∧ j' < S.length
    · rw [if_pos hcond]
      by_cases hbr : (D.getD i' dummySeg).price < (S.getD j' dummySeg).price
      · rw [if_pos hbr]
      · rw [if_neg hbr]
        have hq2 : q ≤ min (D.getD i' dummySeg).q_max (S.getD j' dummySeg).q_max :=
          le_min (hqd hcond.1) (hqs hcond.2)
        by_cases hqm : (D.getD i' dummySeg).q_max < (S.getD j' dummySeg).q_max
        · rw [if_pos hqm]
          refine Nat.le_trans hq2 (ih i' j' (i' + 1) j' _ ?_ ?_)
          · intro h1
            exact Nat.le_trans (min_le_left _ _) (getD_q_mono D hD (Nat.le_succ i') h1)
          · intro _; exact min_le_right _ _
        · rw [if_neg hqm]
          refine Nat.le_trans hq2 (ih i' j' i' (j' + 1) _ ?_ ?_)
          · intro _; exact min_le_left _ _
          · intro h1
            exact Nat.le_trans (min_le_right _ _) (getD_q_mono S hS (Nat.le_succ j') h1)
    · rw [if_neg hcond]

/-! ### The intersector -/

theorem intersect_none_iff (demand supply : List Segment) :
    intersect_demand_supply demand supply = none ↔
      demand = [] ∨ supply = [] ∨
        (demand.getD 0 dummySeg).price < (supply.getD 0 dummySeg).price := by
  unfold intersect_demand_supply
  by_cases he : (demand.isEmpty || supply.isEmpty) = true
  · rw [if_pos he]
    simp only [Bool.or_eq_true, List.isEmpty_eq_true] at he
    refine iff_of_true rfl ?_
    rcases he with h | h
    · exact Or.inl h
    · exact Or.inr (Or.inl h)
  · rw [if_neg he]
    simp only [Bool.or_eq_true, List.isEmpty_eq_true, not_or] at he
    by_cases hp : (demand.getD 0 dummySeg).price < (supply.getD 0 dummySeg).price
    · rw [if_pos hp]
      exact iff_of_true rfl (Or.inr (Or.inr hp))
    · rw [if_neg hp]
      refine iff_of_false (by simp) ?_
      rintro (h | h | h)
      · exact he.1 h
      · exact he.2 h
      · exact hp h

theorem intersect_some_spec (demand supply : List Segment)
    (hd : demand ≠ []) (hs : supply ≠ [])
    (hp : ¬ (demand.getD 0 dummySeg).price < (supply.getD 0 dummySeg).price) :
    intersect_demand_supply demand supply =
      some (((demand.getD
            (intersectLoop demand supply (demand.length + supply.length) 0 0 0 0 0).1
            dummySeg).price
          + (supply.getD
            (intersectLoop demand supply (demand.length + supply.length) 0 0 0 0 0).2.1
            dummySeg).price) / 2,
        (intersectLoop demand supply (demand.length + supply.length) 0 0 0 0 0).2.2) := by
  unfold intersect_demand_supply
  have he : ¬ (demand.isEmpty || supply.isEmpty) = true := by
    simp [hd, hs]
  rw [if_neg he, if_neg hp]

/-- Combined facts about the loop as `intersect_demand_supply` calls it:
the final accepted pair is in bounds, still crossing (supply price ≤ demand
price), `q_star` equals the `min` of the accepted `q_max` pair, and — both
curves being sorted by `q_max` — `q_star` is at least the overlap of the two
first segments. -/
theorem intersect_top_invariant (demand supply : List Segment)
    (hD : List.Pairwise segLE demand) (hS : List.Pairwise segLE supply)
    (hd : demand ≠ []) (hs : supply ≠ [])
    (hp : ¬ (demand.getD 0 dummySeg).price < (supply.getD 0 dummySeg).price) :
    (intersectLoop demand supply (demand.length + supply.length) 0 0 0 0 0).1
        < demand.length ∧
    (intersectLoop demand supply (demand.length + supply.length) 0 0 0 0 0).2.1
        < supply.length ∧
    ¬ (demand.getD
          (intersectLoop demand supply (demand.length + supply.length) 0 0 0 0 0).1
          dummySeg).price <
        (supply.getD
          (intersectLoop demand supply (demand.length + supply.length) 0 0 0 0 0).2.1
          dummySeg).price ∧
    (intersectLoop demand supply (demand.length + supply.length) 0 0 0 0 0).2.2 =
      min (demand.getD
            (intersectLoop demand supply (demand.length + supply.length) 0 0 0 0 0).1
            dummySeg).q_max
          (supply.getD
            (intersectLoop demand supply (demand.length + supply.length) 0 0 0 0 0).2.1
            dummySeg).q_max ∧
    min (demand.getD 0 dummySeg).q_max (supply.getD 0 dummySeg).q_max ≤
      (intersectLoop demand supply (demand.length + supply.length) 0 0 0 0 0).2.2 := by
  have hld : 0 < demand.length := List.length_pos.mpr hd
  have hls : 0 < supply.length := List.length_pos.mpr hs
  obtain ⟨f, hf⟩ : ∃ f, demand.length + supply.length = f + 1 :=
    ⟨demand.length + supply.length - 1, by omega⟩
  rw [hf, intersectLoop, if_pos ⟨hld, hls⟩, if_neg hp]
  by_cases hqm : (demand.getD 0 dummySeg).q_max < (supply.getD 0 dummySeg).q_max
  · rw [if_pos hqm]
    have hinv := intersectLoop_invariant demand supply f 0 0 1 0 _ hld hls hp rfl
    have hmono := intersectLoop_q_mono demand supply hD hS f 0 0 1 0
      (min (demand.getD 0 dummySeg).q_max (supply.getD 0 dummySeg).q_max)
      (fun h1 => Nat.le_trans (min_le_left _ _) (getD_q_mono demand hD (Nat.zero_le 1) h1))
      (fun _ => min_le_right _ _)
    exact ⟨hinv.1, hinv.2.1, hinv.2.2.1, hinv.2.2.2, hmono⟩
  · rw [if_neg hqm]
    have hinv := intersectLoop_invariant demand supply f 0 0 0 1 _ hld hls hp rfl
    have hmono := intersectLoop_q_mono demand supply hD hS f 0 0 0 1
      (min (demand.getD 0 dummySeg).q_max (supply.getD 0 dummySeg).q_max)
      (fun _ => min_le_left _ _)
      (fun h1 => Nat.le_trans (min_le_right _ _) (getD_q_mono supply hS (Nat.zero_le 1) h1))
    exact ⟨hinv.1, hinv.2.1, hinv.2.2.1, hinv.2.2.2, hmono⟩

/-! ### The allocator -/

theorem clear_orders_snd_pred (pr : Price → Price → Bool) (p : Price) :
    ∀ (orders : List Order) (q : Nat) (o : Order),
      o ∈ (clear_orders pr p orders q).2 → pr o.price p = true := by
  intro orders
  induction orders with
  | nil => intro q o ho; simp [clear_orders] at ho
  | cons a rest ih =>
    intro q o ho
    rw [clear_orders] at ho
    by_cases hp : pr a.price p = true
    · rw [if_pos hp] at ho
      by_cases hq : a.qty ≤ q
      · rw [if_pos hq] at ho
        rcases List.mem_cons.mp ho with h1 | h1
        · rw [h1]; exact hp
        · exact ih (q - a.qty) o h1
      · rw [if_neg hq] at ho
        simp at ho
    · rw [if_neg hp] at ho
      simp at ho

theorem clear_orders_fst_length (pr : Price → Price → Bool) (p : Price) :
    ∀ (orders : List Order) (q : Nat),
      (clear_orders pr p orders q).1.length = orders.length := by
  intro orders
  induction orders with
  | nil => intro q; rfl
  | cons a rest ih =>
    intro q
    rw [clear_orders]
    by_cases hp : pr a.price p = true
    · rw [if_pos hp]
      by_cases hq : a.qty ≤ q
      · rw [if_pos hq]
        simp [ih (q - a.qty)]
      · rw [if_neg hq]
        simp
    · rw [if_neg hp]

theorem clear_orders_fst_qty (pr : Price → Price → Bool) (p : Price) :
    ∀ (orders : List Order) (q : Nat), (∀ o ∈ orders, 0 < o.qty) →
      ∀ o ∈ (clear_orders pr p orders q).1, o.cleared = true ∨ 0 < o.qty := by
  intro orders
  induction orders with
  | nil => intro q _ o ho; simp [clear_orders] at ho
  | cons a rest ih =>
    intro q hpos o ho
    rw [clear_orders] at ho
    by_cases hp : pr a.price p = true
    · rw [if_pos hp] at ho
      by_cases hq : a.qty ≤ q
      · rw [if_pos hq] at ho
        rcases List.mem_cons.mp ho with h1 | h1
        · rw [h1]; exact Or.inl rfl
        · exact ih (q - a.qty) (fun o' ho' => hpos o' (by simp [ho'])) o h1
      · rw [if_neg hq] at ho
        rcases List.mem_cons.mp ho with h1 | h1
        · rw [h1]
          right
          show 0 < a.qty - q
          omega
        · exact Or.inr (hpos o (by simp [h1]))
    · rw [if_neg hp] at ho
      exact Or.inr (hpos o ho)

/-- If a side can absorb the whole of `q_star` at eligible prices, then the
quantities of the cleared snapshots together with the partial-fill decrement
account for exactly `q_star`; the book volume never grows. -/
theorem clear_orders_conservation (pr : Price → Price → Bool) (p : Price) :
    ∀ (orders : List Order) (q : Nat),
      q ≤ sumQty (orders.takeWhile (fun o => pr o.price p)) →
      sumQty (clear_orders pr p orders q).2 + sumQty orders
          = q + sumQty (clear_orders pr p orders q).1
      ∧ sumQty (clear_orders pr p orders q).1 ≤ sumQty orders := by
  intro orders
  induction orders with
  | nil =>
    intro q hq
    simp only [List.takeWhile_nil, sumQty_nil, Nat.le_zero] at hq
    simp [clear_orders, sumQty_nil, hq]
  | cons a rest ih =>
    intro q hq
    rw [clear_orders]
    by_cases hp : pr a.price p = true
    · simp only [List.takeWhile_cons, hp, if_true, sumQty_cons] at hq
      rw [if_pos hp]
      by_cases hqty : a.qty ≤ q
      · rw [if_pos hqty]
        obtain ⟨ih1, ih2⟩ := ih (q - a.qty) (by omega)
        dsimp only
        simp only [sumQty_cons]
        constructor <;> omega
      · rw [if_neg hqty]
        dsimp only
        simp only [sumQty_cons, sumQty_nil]
        constructor <;> omega
    · rw [if_neg hp]
      have hq0 : q = 0 := by
        simp [List.takeWhile_cons, hp, sumQty_nil] at hq
        omega
      dsimp only
      simp [hq0, sumQty_nil]

theorem countP_zip_self (l : List Order) :
    List.countP (fun ab : Order × Order => decide (ab.2.qty ≠ ab.1.qty)) (l.zip l) = 0 := by
  induction l with
  | nil => rfl
  | cons a rest ih =>
    rw [List.zip_cons_cons, List.countP_cons, ih]
    simp

/-- At most one order per `clear_orders` walk has its quantity changed. -/
theorem clear_orders_partial_count (pr : Price → Price → Bool) (p : Price) :
    ∀ (orders : List Order) (q : Nat),
      List.countP (fun ab : Order × Order => decide (ab.2.qty ≠ ab.1.qty))
        (orders.zip (clear_orders pr p orders q).1) ≤ 1 := by
  intro orders
  induction orders with
  | nil => intro q; simp [clear_orders]
  | cons a rest ih =>
    intro q
    rw [clear_orders]
    by_cases hp : pr a.price p = true
    · rw [if_pos hp]
      by_cases hqty : a.qty ≤ q
      · rw [if_pos hqty]
        dsimp only
        rw [List.zip_cons_cons, List.countP_cons]
        simpa using ih (q - a.qty)
      · rw [if_neg hqty]
        dsimp only
        rw [List.zip_cons_cons, List.countP_cons, countP_zip_self]
        split <;> omega
    · rw [if_neg hp]
      dsimp only
      rw [countP_zip_self]
      omega

/-- Weakening the predicate can only extend the eligible price range. -/
theorem sumQty_takeWhile_mono {f g : Order → Bool} (h : ∀ o, f o = true → g o = true) :
    ∀ orders : List Order, sumQty (orders.takeWhile f) ≤ sumQty (orders.takeWhile g) := by
  intro orders
  induction orders with
  | nil => exact Nat.le_refl 0
  | cons a rest ih =>
    by_cases hf : f a = true
    · rw [List.takeWhile_cons_of_pos hf, List.takeWhile_cons_of_pos (h a hf),
        sumQty_cons, sumQty_cons]
      exact Nat.add_le_add_left ih _
    · rw [List.takeWhile_cons_of_neg hf]
      exact Nat.zero_le _

/-! ### Inverting `calculate_batch` -/

theorem calculate_batch_trade_inv (bids asks : List Order) (p : Price) (q : Nat)
    (cb ca bids' asks' : List Order)
    (h : calculate_batch bids asks = (BatchReport.Trade p q cb ca, bids', asks')) :
    intersect_demand_supply (orders_to_curve_segments (sortBids bids))
        (orders_to_curve_segments (sortAsks asks)) = some (p, q)
    ∧ cb = (clear_orders bid_price_predicate p (sortBids bids) q).2
    ∧ ca = (clear_orders ask_price_predicate p (sortAsks asks) q).2
    ∧ bids' = ((clear_orders bid_price_predicate p (sortBids bids) q).1).filter
        (fun o => !o.cleared)
    ∧ asks' = ((clear_orders ask_price_predicate p (sortAsks asks) q).1).filter
        (fun o => !o.cleared) := by
  unfold calculate_batch at h
  cases hI : intersect_demand_supply (orders_to_curve_segments (sortBids bids))
      (orders_to_curve_segments (sortAsks asks)) with
  | none =>
    rw [hI] at h
    simp at h
  | some pq =>
    obtain ⟨p', q'⟩ := pq
    rw [hI] at h
    simp only [Prod.mk.injEq, BatchReport.Trade.injEq] at h
    obtain ⟨⟨hp', hq', hcb, hca⟩, hb', ha'⟩ := h
    subst hp'
    subst hq'
    exact ⟨rfl, hcb.symm, hca.symm, hb'.symm, ha'.symm⟩

theorem calculate_batch_notrade_inv (bids asks bids' asks' : List Order)
    (h : calculate_batch bids asks = (BatchReport.NoTrade, bids', asks')) :
    intersect_demand_supply (orders_to_curve_segments (sortBids bids))
        (orders_to_curve_segments (sortAsks asks)) = none
    ∧ bids' = sortBids bids ∧ asks' = sortAsks asks := by
  unfold calculate_batch at h
  cases hI : intersect_demand_supply (orders_to_curve_segments (sortBids bids))
      (orders_to_curve_segments (sortAsks asks)) with
  | none =>
    rw [hI] at h
    simp only [Prod.mk.injEq] at h
    exact ⟨rfl, h.2.1.symm, h.2.2.symm⟩
  | some pq =>
    obtain ⟨p', q'⟩ := pq
    rw [hI] at h
    simp at h

/-! ### The full curve-builder bundle, generic in the side -/

/-- On a book sorted by the side's price priority (strict order `r`, higher
priority first) with positive quantities, `orders_to_curve_segments` emits the
traversed prices with adjacent repeats collapsed, prices strictly falling in
priority, `q_max` strictly increasing, no duplicate prices, and the last
`q_max` equal to the total book volume. -/
theorem curve_spec_generic (r : Price → Price → Prop) [DecidableRel r]
    (hirr : ∀ a : Price, ¬ r a a)
    (htrans : ∀ {a b c : Price}, r a b → r b c → r a c) (orders : List Order)
    (hpos : ∀ o ∈ orders, 0 < o.qty)
    (hsorted : List.Pairwise (fun a b : Order => b.price = a.price ∨ r b.price a.price) orders) :
    (orders_to_curve_segments orders).map Segment.price
        = List.destutter (· ≠ ·) (orders.map Order.price)
    ∧ List.Chain' (fun a b => r b a) ((orders_to_curve_segments orders).map Segment.price)
    ∧ List.Chain' (· < ·) ((orders_to_curve_segments orders).map Segment.q_max)
    ∧ ((orders_to_curve_segments orders).map Segment.price).Nodup
    ∧ (orders ≠ [] →
        ((orders_to_curve_segments orders).map Segment.q_max).getLast? = some (sumQty orders)) := by
  cases orders with
  | nil =>
    refine ⟨rfl, List.chain'_nil, List.chain'_nil, List.nodup_nil, fun h => absurd rfl h⟩
  | cons o rest =>
    have hbelow : ∀ o' ∈ rest, o'.price = o.price ∨ r o'.price o.price :=
      (List.pairwise_cons.mp hsorted).1
    rw [curve_eq_of_sorted r hirr htrans (o :: rest) hpos hsorted,
      buildSegs_eq_runPending r hirr htrans o rest hsorted]
    have hmapp : (((runPending o.price o.qty rest).map
        (fun pv : Price × Nat => (⟨pv.1, pv.2⟩ : Segment))).map Segment.price)
        = (runPending o.price o.qty rest).map Prod.fst := by
      rw [List.map_map]
      rfl
    have hmapq : (((runPending o.price o.qty rest).map
        (fun pv : Price × Nat => (⟨pv.1, pv.2⟩ : Segment))).map Segment.q_max)
        = (runPending o.price o.qty rest).map Prod.snd := by
      rw [List.map_map]
      rfl
    have hfst := runPending_fst_chain (r := r) rest o.price o.qty hbelow hsorted.of_cons
    refine ⟨?_, ?_, ?_, ?_, ?_⟩
    · rw [hmapp, runPending_map_fst, List.map_cons]
    · rw [hmapp]
      exact hfst
    · rw [hmapq]
      exact runPending_snd_chain o.price o.qty rest (fun o' h => hpos o' (by simp [h]))
    · rw [hmapp]
      haveI : IsTrans Price (fun a b => r b a) := ⟨fun _ _ _ h₁ h₂ => htrans h₂ h₁⟩
      have hpair := List.chain'_iff_pairwise.mp hfst
      refine List.Pairwise.imp ?_ hpair
      intro a b hba
      intro hab
      rw [hab] at hba
      exact hirr b hba
    · intro _
      rw [hmapq, runPending_getLast, sumQty_cons]

/-- C1: on the S7 book, `calculate_batch` trades 123 units at price 111.45,
fully clearing the 112×2 and 111.76×21 bids (in priority order) and the
110×2, 111.32×21 and 111.45×100 asks (in priority order); the 111.45 bid
stays in the book with its quantity cut from 200 to 100 (ahead of the
untouched 111.35×100 bid), and the 112.35×100 ask stays untouched. -/
theorem calculate_batch_S7 :
    calculate_batch S7bids S7asks =
      (BatchReport.Trade 111.45 123
        [⟨2, 112, 0, true⟩, ⟨21, 111.76, 0, true⟩]
        [⟨2, 110, 0, true⟩, ⟨21, 111.32, 0, true⟩, ⟨100, 111.45, 0, true⟩],
       [⟨100, 111.45, 0, false⟩, ⟨100, 111.35, 0, false⟩],
       [⟨100, 112.35, 0, false⟩]) := by
  norm_num [S7bids, S7asks, calculate_batch, sortBids, sortAsks, bidLE, askLE,
    orders_to_curve_segments, buildSegs, curveStep, insertAssoc, segLE,
    intersect_demand_supply, intersectLoop, clear_orders,
    bid_price_predicate, ask_price_predicate, dummySeg, Order.new]

/-- C2 (failing-input evaluation): a lone 5×10 bid survives a batch, yet its
`batches_out` is still 0 afterwards — `calculate_batch` contains no code that
increments the seniority of surviving orders, so an order surviving k batches
keeps seniority 0 rather than k. -/
theorem calculate_batch_does_not_increment_seniority :
    calculate_batch [⟨10, 5, 0, false⟩] []
      = (BatchReport.NoTrade, [⟨10, 5, 0, false⟩], []) := by
  norm_num [calculate_batch, sortBids, sortAsks, bidLE, askLE,
    orders_to_curve_segments, buildSegs, curveStep, insertAssoc, segLE,
    intersect_demand_supply, intersectLoop, dummySeg]

/-- C10: a 5×20 bid against a 3×10 ask trades 10 units at price 4; the bid is
only partially filled and partial fills are not reported, so the `Trade`
report has an empty `cleared_bids` list while `qty` is positive. -/
theorem trade_with_empty_cleared_bids :
    calculate_batch [Order.new 5 20] [Order.new 3 10]
      = (BatchReport.Trade 4 10 [] [⟨10, 3, 0, true⟩], [⟨10, 5, 0, false⟩], []) := by
  norm_num [calculate_batch, sortBids, sortAsks, bidLE, askLE,
    orders_to_curve_segments, buildSegs, curveStep, insertAssoc, segLE,
    intersect_demand_supply, intersectLoop, clear_orders,
    bid_price_predicate, ask_price_predicate, dummySeg, Order.new]

/-- C3 (counterexample): on a zero-quantity 5×0 bid against a 3×1 ask the
intersector returns `Some((4, 0))`, and `calculate_batch` does NOT map it to
`NoTrade`: it returns a `Trade` report whose `qty` field is 0 (the driver has
no `q* = 0` check), contradicting both parts of the claim. -/
theorem calculate_batch_zero_qty_counterexample :
    intersect_demand_supply (orders_to_curve_segments (sortBids [⟨0, 5, 0, false⟩]))
        (orders_to_curve_segments (sortAsks [⟨1, 3, 0, false⟩])) = some (4, 0)
    ∧ (calculate_batch [⟨0, 5, 0, false⟩] [⟨1, 3, 0, false⟩]).1
        = BatchReport.Trade 4 0 [⟨0, 5, 0, true⟩] [] := by
  constructor
  · norm_num [sortBids, sortAsks, bidLE, askLE,
      orders_to_curve_segments, buildSegs, curveStep, insertAssoc, segLE,
      intersect_demand_supply, intersectLoop, dummySeg]
  · norm_num [calculate_batch, sortBids, sortAsks, bidLE, askLE,
      orders_to_curve_segments, buildSegs, curveStep, insertAssoc, segLE,
      intersect_demand_supply, intersectLoop, clear_orders,
      bid_price_predicate, ask_price_predicate, dummySeg]

/-- C6: in every Trade report, all cleared bids have price at least `p*` and
all cleared asks have price at most `p*`: `clear_orders` only ever snapshots
orders that pass the side's price predicate. -/
theorem cleared_price_admissible (bids asks : List Order) (p : Price) (q : Nat)
    (cb ca bids' asks' : List Order)
    (h : calculate_batch bids asks = (BatchReport.Trade p q cb ca, bids', asks')) :
    (∀ o ∈ cb, p ≤ o.price) ∧ (∀ o ∈ ca, o.price ≤ p) := by
  obtain ⟨-, hcb, hca, -, -⟩ := calculate_batch_trade_inv bids asks p q cb ca bids' asks' h
  constructor
  · intro o ho
    rw [hcb] at ho
    have hpred := clear_orders_snd_pred bid_price_predicate p (sortBids bids) q o ho
    simpa [bid_price_predicate] using hpred
  · intro o ho
    rw [hca] at ho
    have hpred := clear_orders_snd_pred ask_price_predicate p (sortAsks asks) q o ho
    simpa [ask_price_predicate] using hpred

theorem cleared_price_admissible_witness :
    (∀ o ∈ ([] : List Order), (4 : Price) ≤ o.price)
    ∧ (∀ o ∈ ([⟨10, 3, 0, true⟩] : List Order), o.price ≤ (4 : Price)) :=
  cleared_price_admissible [Order.new 5 20] [Order.new 3 10] 4 10 [] [⟨10, 3, 0, true⟩]
    [⟨10, 5, 0, false⟩] []
    (by norm_num [calculate_batch, sortBids, sortAsks, bidLE, askLE,
      orders_to_curve_segments, buildSegs, curveStep, insertAssoc, segLE,
      intersect_demand_supply, intersectLoop, clear_orders,
      bid_price_predicate, ask_price_predicate, dummySeg, Order.new])

/-- C8: if all resting orders enter the batch with positive quantity and
`cleared = false`, every order left in the book after the batch again has
positive quantity and `cleared = false`: cleared orders are purged, and the
partial-fill decrement leaves a strictly positive remainder. -/
theorem resting_order_invariant (bids asks : List Order) (rep : BatchReport)
    (bids' asks' : List Order)
    (hq : ∀ o ∈ bids ++ asks, 0 < o.qty) (hc : ∀ o ∈ bids ++ asks, o.cleared = false)
    (h : calculate_batch bids asks = (rep, bids', asks')) :
    ∀ o ∈ bids' ++ asks', 0 < o.qty ∧ o.cleared = false := by
  have hqb : ∀ o ∈ bids, 0 < o.qty := fun o ho => hq o (List.mem_append_left _ ho)
  have hqa : ∀ o ∈ asks, 0 < o.qty := fun o ho => hq o (List.mem_append_right _ ho)
  have hcb : ∀ o ∈ bids, o.cleared = false := fun o ho => hc o (List.mem_append_left _ ho)
  have hca : ∀ o ∈ asks, o.cleared = false := fun o ho => hc o (List.mem_append_right _ ho)
  cases rep with
  | NoTrade =>
    obtain ⟨-, hb, ha⟩ := calculate_batch_notrade_inv bids asks bids' asks' h
    intro o ho
    rcases List.mem_append.mp ho with ho | ho
    · have : o ∈ bids := (sortBids_perm bids).subset (hb ▸ ho)
      exact ⟨hqb o this, hcb o this⟩
    · have : o ∈ asks := (sortAsks_perm asks).subset (ha ▸ ho)
      exact ⟨hqa o this, hca o this⟩
  | Trade p q cb ca =>
    obtain ⟨-, -, -, hb, ha⟩ := calculate_batch_trade_inv bids asks p q cb ca bids' asks' h
    intro o ho
    rcases List.mem_append.mp ho with ho | ho
    · rw [hb] at ho
      obtain ⟨hoin, hocl⟩ := List.mem_filter.mp ho
      have hocl' : o.cleared = false := by simpa using hocl
      have hqty := clear_orders_fst_qty bid_price_predicate p (sortBids bids) q
        (fun o' ho' => hqb o' ((sortBids_perm bids).subset ho')) o hoin
      rcases hqty with h1 | h1
      · rw [hocl'] at h1
        exact absurd h1 (by simp)
      · exact ⟨h1, hocl'⟩
    · rw [ha] at ho
      obtain ⟨hoin, hocl⟩ := List.mem_filter.mp ho
      have hocl' : o.cleared = false := by simpa using hocl
      have hqty := clear_orders_fst_qty ask_price_predicate p (sortAsks asks) q
        (fun o' ho' => hqa o' ((sortAsks_perm asks).subset ho')) o hoin
      rcases hqty with h1 | h1
      · rw [hocl'] at h1
        exact absurd h1 (by simp)
      · exact ⟨h1, hocl'⟩

theorem resting_order_invariant_witness :
    0 < (⟨10, 5, 0, false⟩ : Order).qty ∧ (⟨10, 5, 0, false⟩ : Order).cleared = false :=
  resting_order_invariant [Order.new 5 20] [Order.new 3 10]
    (BatchReport.Trade 4 10 [] [⟨10, 3, 0, true⟩]) [⟨10, 5, 0, false⟩] []
    (by decide) (by decide)
    (by norm_num [calculate_batch, sortBids, sortAsks, bidLE, askLE,
      orders_to_curve_segments, buildSegs, curveStep, insertAssoc, segLE,
      intersect_demand_supply, intersectLoop, clear_orders,
      bid_price_predicate, ask_price_predicate, dummySeg, Order.new])
    ⟨10, 5, 0, false⟩ (by simp)

/-- C9: a NoTrade batch returns both order lists as a permutation of what
came in — the only mutation on that path is the in-place priority sort — with
every order record (price, qty, seniority, cleared flag) unchanged. -/
theorem no_trade_frame (bids asks bids' asks' : List Order)
    (h : calculate_batch bids asks = (BatchReport.NoTrade, bids', asks')) :
    List.Perm bids' bids ∧ List.Perm asks' asks := by
  obtain ⟨-, hb, ha⟩ := calculate_batch_notrade_inv bids asks bids' asks' h
  rw [hb, ha]
  exact ⟨sortBids_perm bids, sortAsks_perm asks⟩

theorem no_trade_frame_witness :
    List.Perm ([⟨10, 5, 0, false⟩] : List Order) [⟨10, 5, 0, false⟩]
    ∧ List.Perm ([] : List Order) [] :=
  no_trade_frame [⟨10, 5, 0, false⟩] [] [⟨10, 5, 0, false⟩] []
    (by norm_num [calculate_batch, sortBids, sortAsks, bidLE, askLE,
      orders_to_curve_segments, buildSegs, curveStep, insertAssoc, segLE,
      intersect_demand_supply, intersectLoop, dummySeg])

/-- C4: on a book sorted in the side's price-priority order with positive
quantities, `orders_to_curve_segments` emits the traversed prices with
adjacent equal prices collapsed (same traversal order as the input), with
strictly monotone prices, strictly increasing `q_max`, no duplicate prices,
and final `q_max` equal to the book's total quantity; the empty book yields
the empty curve. -/
theorem orders_to_curve_segments_spec (orders : List Order)
    (hpos : ∀ o ∈ orders, 0 < o.qty) :
    (orders = [] → orders_to_curve_segments orders = [])
    ∧ (List.Pairwise (fun a b : Order => b.price ≤ a.price) orders →
        (orders_to_curve_segments orders).map Segment.price
            = List.destutter (· ≠ ·) (orders.map Order.price)
        ∧ List.Chain' (fun a b : Price => b < a)
            ((orders_to_curve_segments orders).map Segment.price)
        ∧ List.Chain' (· < ·) ((orders_to_curve_segments orders).map Segment.q_max)
        ∧ ((orders_to_curve_segments orders).map Segment.price).Nodup
        ∧ (orders ≠ [] →
            ((orders_to_curve_segments orders).map Segment.q_max).getLast?
              = some (sumQty orders)))
    ∧ (List.Pairwise (fun a b : Order => a.price ≤ b.price) orders →
        (orders_to_curve_segments orders).map Segment.price
            = List.destutter (· ≠ ·) (orders.map Order.price)
        ∧ List.Chain' (fun a b : Price => a < b)
            ((orders_to_curve_segments orders).map Segment.price)
        ∧ List.Chain' (· < ·) ((orders_to_curve_segments orders).map Segment.q_max)
        ∧ ((orders_to_curve_segments orders).map Segment.price).Nodup
        ∧ (orders ≠ [] →
            ((orders_to_curve_segments orders).map Segment.q_max).getLast?
              = some (sumQty orders))) := by
  refine ⟨?_, ?_, ?_⟩
  · intro h
    subst h
    rfl
  · intro hsorted
    exact @curve_spec_generic (fun a b : Price => a < b)
      (fun a b => inferInstanceAs (Decidable (a < b)))
      (fun a => lt_irrefl a) (fun h₁ h₂ => lt_trans h₁ h₂) orders hpos
      (hsorted.imp (fun h => (lt_or_eq_of_le h).symm))
  · intro hsorted
    exact @curve_spec_generic (fun a b : Price => b < a)
      (fun a b => inferInstanceAs (Decidable (b < a)))
      (fun a => lt_irrefl a) (fun h₁ h₂ => lt_trans h₂ h₁) orders hpos
      (hsorted.imp (fun h => Or.elim (lt_or_eq_of_le h)
        (fun h1 => Or.inr h1) (fun h1 => Or.inl h1.symm)))

theorem orders_to_curve_segments_spec_witness :
    (orders_to_curve_segments S7bids).map Segment.price
        = List.destutter (· ≠ ·) (S7bids.map Order.price)
    ∧ List.Chain' (fun a b : Price => b < a)
        ((orders_to_curve_segments S7bids).map Segment.price)
    ∧ List.Chain' (· < ·) ((orders_to_curve_segments S7bids).map Segment.q_max)
    ∧ ((orders_to_curve_segments S7bids).map Segment.price).Nodup
    ∧ (S7bids ≠ [] →
        ((orders_to_curve_segments S7bids).map Segment.q_max).getLast?
          = some (sumQty S7bids)) :=
  (orders_to_curve_segments_spec S7bids (by decide)).2.1
    (by norm_num [S7bids, Order.new, List.pairwise_cons])

/-- C3 (amended): with every order quantity positive, `calculate_batch`
returns `NoTrade` exactly on the `None` outcome of the intersector; the
intersector then never reports `q* = 0`, and every `Trade` report carries a
positive quantity.  (The driver itself has no `q* = 0` check — see the
counterexample with a zero-quantity order.) -/
theorem calculate_batch_no_trade_conditions (bids asks : List Order)
    (hq : ∀ o ∈ bids ++ asks, 0 < o.qty) :
    (intersect_demand_supply (orders_to_curve_segments (sortBids bids))
        (orders_to_curve_segments (sortAsks asks)) = none →
      (calculate_batch bids asks).1 = BatchReport.NoTrade)
    ∧ (∀ p q, intersect_demand_supply (orders_to_curve_segments (sortBids bids))
        (orders_to_curve_segments (sortAsks asks)) = some (p, q) → 0 < q)
    ∧ (∀ p q cb ca, (calculate_batch bids asks).1 = BatchReport.Trade p q cb ca → 0 < q) := by
  have part2 : ∀ p q, intersect_demand_supply (orders_to_curve_segments (sortBids bids))
      (orders_to_curve_segments (sortAsks asks)) = some (p, q) → 0 < q := by
    intro p q hI
    have hne : ¬ (orders_to_curve_segments (sortBids bids) = []
        ∨ orders_to_curve_segments (sortAsks asks) = []
        ∨ ((orders_to_curve_segments (sortBids bids)).getD 0 dummySeg).price <
            ((orders_to_curve_segments (sortAsks asks)).getD 0 dummySeg).price) := by
      intro hcase
      have hnone := (intersect_none_iff _ _).mpr hcase
      rw [hI] at hnone
      simp at hnone
    push_neg at hne
    obtain ⟨hd, hs, hp⟩ := hne
    have htop := intersect_top_invariant _ _ (curve_sorted (sortBids bids))
      (curve_sorted (sortAsks asks)) hd hs (not_lt.mpr hp)
    have hspec := intersect_some_spec _ _ hd hs (not_lt.mpr hp)
    rw [hspec] at hI
    simp only [Option.some.injEq, Prod.mk.injEq] at hI
    obtain ⟨-, hq'⟩ := hI
    rw [← hq']
    have h1 : 1 ≤ ((orders_to_curve_segments (sortBids bids)).getD 0 dummySeg).q_max := by
      refine curve_q_max_pos (fun a b : Price => a < b) (fun a => lt_irrefl a)
        (fun h₁ h₂ => lt_trans h₁ h₂) (sortBids bids)
        (fun o ho => hq o (List.mem_append_left _ ((sortBids_perm bids).subset ho)))
        (sortBids_sorted bids) _ (getD_mem _ (List.length_pos.mpr hd))
    have h2 : 1 ≤ ((orders_to_curve_segments (sortAsks asks)).getD 0 dummySeg).q_max := by
      refine curve_q_max_pos (fun a b : Price => b < a) (fun a => lt_irrefl a)
        (fun h₁ h₂ => lt_trans h₂ h₁) (sortAsks asks)
        (fun o ho => hq o (List.mem_append_right _ ((sortAsks_perm asks).subset ho)))
        (sortAsks_sorted asks) _ (getD_mem _ (List.length_pos.mpr hs))
    have h3 := htop.2.2.2.2
    have h4 : 1 ≤ min ((orders_to_curve_segments (sortBids bids)).getD 0 dummySeg).q_max
        ((orders_to_curve_segments (sortAsks asks)).getD 0 dummySeg).q_max :=
      le_min h1 h2
    omega
  refine ⟨?_, part2, ?_⟩
  · intro hI
    simp [calculate_batch, hI]
  · intro p q cb ca h
    unfold calculate_batch at h
    cases hI : intersect_demand_supply (orders_to_curve_segments (sortBids bids))
        (orders_to_curve_segments (sortAsks asks)) with
    | none =>
      rw [hI] at h
      simp at h
    | some pq =>
      obtain ⟨p', q'⟩ := pq
      rw [hI] at h
      dsimp only at h
      simp only [BatchReport.Trade.injEq] at h
      obtain ⟨-, hq'', -, -⟩ := h
      exact hq'' ▸ part2 p' q' hI

theorem calculate_batch_no_trade_conditions_witness :
    (intersect_demand_supply (orders_to_curve_segments (sortBids [Order.new 5 20]))
        (orders_to_curve_segments (sortAsks [Order.new 3 10])) = none →
      (calculate_batch [Order.new 5 20] [Order.new 3 10]).1 = BatchReport.NoTrade)
    ∧ (∀ p q, intersect_demand_supply (orders_to_curve_segments (sortBids [Order.new 5 20]))
        (orders_to_curve_segments (sortAsks [Order.new 3 10])) = some (p, q) → 0 < q)
    ∧ (∀ p q cb ca, (calculate_batch [Order.new 5 20] [Order.new 3 10]).1
        = BatchReport.Trade p q cb ca → 0 < q) :=
  calculate_batch_no_trade_conditions [Order.new 5 20] [Order.new 3 10] (by decide)

/-- C7: the intersector returns `None` precisely when a side is empty or the
best bid is under the best ask; in every other case it returns
`Some((p*, q*))` where the sweep's final accepted indices `(i, j)` are in
bounds and `p*` is the arithmetic mean of the prices of those two segments. -/
theorem intersect_none_iff_and_midpoint (demand supply : List Segment) :
    (intersect_demand_supply demand supply = none ↔
      demand = [] ∨ supply = [] ∨
        (demand.getD 0 dummySeg).price < (supply.getD 0 dummySeg).price)
    ∧ (demand ≠ [] → supply ≠ [] →
      ¬ (demand.getD 0 dummySeg).price < (supply.getD 0 dummySeg).price →
      ∃ i j q, i < demand.length ∧ j < supply.length ∧
        intersectLoop demand supply (demand.length + supply.length) 0 0 0 0 0 = (i, j, q) ∧
        intersect_demand_supply demand supply =
          some (((demand.getD i dummySeg).price + (supply.getD j dummySeg).price) / 2, q)) := by
  refine ⟨intersect_none_iff demand supply, ?_⟩
  intro hd hs hp
  have hin := intersectLoop_inbounds demand supply (demand.length + supply.length) 0 0 0 0 0
    (List.length_pos.mpr hd) (List.length_pos.mpr hs)
  exact ⟨_, _, _, hin.1, hin.2, rfl, intersect_some_spec demand supply hd hs hp⟩

theorem intersect_none_iff_and_midpoint_witness :
    ∃ i j q, i < [(⟨5, 20⟩ : Segment)].length ∧ j < [(⟨3, 10⟩ : Segment)].length ∧
      intersectLoop [(⟨5, 20⟩ : Segment)] [(⟨3, 10⟩ : Segment)]
          ([(⟨5, 20⟩ : Segment)].length + [(⟨3, 10⟩ : Segment)].length) 0 0 0 0 0 = (i, j, q) ∧
      intersect_demand_supply [(⟨5, 20⟩ : Segment)] [(⟨3, 10⟩ : Segment)] =
        some ((([(⟨5, 20⟩ : Segment)].getD i dummySeg).price
            + ([(⟨3, 10⟩ : Segment)].getD j dummySeg).price) / 2, q) :=
  (intersect_none_iff_and_midpoint [⟨5, 20⟩] [⟨3, 10⟩]).2
    (by simp) (by simp) (by norm_num [dummySeg])

/-- One side of the volume-conservation argument: if a segment of the side's
own curve covers `q_star` and every order eligible at that segment's price
passes the side predicate, the allocator accounts for all of `q_star`. -/
theorem clear_side_bound (r : Price → Price → Prop) [DecidableRel r]
    (hirr : ∀ a : Price, ¬ r a a) (htrans : ∀ {a b c : Price}, r a b → r b c → r a c)
    (sorted : List Order)
    (hsorted : List.Pairwise (fun a b : Order => b.price = a.price ∨ r b.price a.price) sorted)
    (pr : Price → Price → Bool) (p : Price) (q : Nat)
    (seg : Segment) (hmem : seg ∈ orders_to_curve_segments sorted)
    (hq : q ≤ seg.q_max)
    (hpred : ∀ o : Order, (o.price = seg.price ∨ r seg.price o.price) → pr o.price p = true) :
    sumQty (clear_orders pr p sorted q).2 + sumQty sorted
        = q + sumQty (clear_orders pr p sorted q).1
    ∧ sumQty (clear_orders pr p sorted q).1 ≤ sumQty sorted := by
  have hcurve := curve_le_takeWhile r hirr htrans sorted hsorted seg hmem
  have himp : ∀ o : Order,
      (fun o : Order => decide (o.price = seg.price) || decide (r seg.price o.price)) o = true →
      (fun o : Order => pr o.price p) o = true := by
    intro o h1
    simp only [Bool.or_eq_true, decide_eq_true_eq] at h1
    exact hpred o h1
  have hmono := sumQty_takeWhile_mono himp sorted
  exact clear_orders_conservation pr p sorted q (Nat.le_trans hq (Nat.le_trans hcurve hmono))

/-- C5: whenever `calculate_batch` trades `q*`, then on each side the cleared
snapshots plus the partial-fill decrement account for exactly `q*`
(`Σ cleared + (book volume before − book volume after the walk) = q*`), the
walk never inflates the book, preserves its length, and changes the quantity
of at most one order. -/
theorem clear_volume_conservation (bids asks : List Order) (p : Price) (q : Nat)
    (cb ca bids' asks' : List Order)
    (h : calculate_batch bids asks = (BatchReport.Trade p q cb ca, bids', asks')) :
    (sumQty cb + (sumQty (sortBids bids)
        - sumQty (clear_orders bid_price_predicate p (sortBids bids) q).1) = q
      ∧ sumQty (clear_orders bid_price_predicate p (sortBids bids) q).1
          ≤ sumQty (sortBids bids)
      ∧ (clear_orders bid_price_predicate p (sortBids bids) q).1.length
          = (sortBids bids).length
      ∧ List.countP (fun ab : Order × Order => decide (ab.2.qty ≠ ab.1.qty))
          ((sortBids bids).zip (clear_orders bid_price_predicate p (sortBids bids) q).1) ≤ 1)
    ∧ (sumQty ca + (sumQty (sortAsks asks)
        - sumQty (clear_orders ask_price_predicate p (sortAsks asks) q).1) = q
      ∧ sumQty (clear_orders ask_price_predicate p (sortAsks asks) q).1
          ≤ sumQty (sortAsks asks)
      ∧ (clear_orders ask_price_predicate p (sortAsks asks) q).1.length
          = (sortAsks asks).length
      ∧ List.countP (fun ab : Order × Order => decide (ab.2.qty ≠ ab.1.qty))
          ((sortAsks asks).zip (clear_orders ask_price_predicate p (sortAsks asks) q).1) ≤ 1) := by
  obtain ⟨hI, hcb, hca, -, -⟩ := calculate_batch_trade_inv bids asks p q cb ca bids' asks' h
  have hne : ¬ (orders_to_curve_segments (sortBids bids) = []
      ∨ orders_to_curve_segments (sortAsks asks) = []
      ∨ ((orders_to_curve_segments (sortBids bids)).getD 0 dummySeg).price <
          ((orders_to_curve_segments (sortAsks asks)).getD 0 dummySeg).price) := by
    intro hcase
    have hnone := (intersect_none_iff _ _).mpr hcase
    rw [hI] at hnone
    simp at hnone
  push_neg at hne
  obtain ⟨hd, hs, hp0⟩ := hne
  obtain ⟨hiD, hjS, hcross, hminq, -⟩ := intersect_top_invariant _ _
    (curve_sorted (sortBids bids)) (curve_sorted (sortAsks asks)) hd hs (not_lt.mpr hp0)
  have hspec := intersect_some_spec _ _ hd hs (not_lt.mpr hp0)
  rw [hspec] at hI
  simp only [Option.some.injEq, Prod.mk.injEq] at hI
  obtain ⟨hpeq, hqeq⟩ := hI
  have hcross' := not_lt.mp hcross
  have hple : p ≤ ((orders_to_curve_segments (sortBids bids)).getD
      (intersectLoop (orders_to_curve_segments (sortBids bids))
        (orders_to_curve_segments (sortAsks asks))
        ((orders_to_curve_segments (sortBids bids)).length
          + (orders_to_curve_segments (sortAsks asks)).length) 0 0 0 0 0).1 dummySeg).price := by
    rw [← hpeq]
    linarith
  have hsle : ((orders_to_curve_segments (sortAsks asks)).getD
      (intersectLoop (orders_to_curve_segments (sortBids bids))
        (orders_to_curve_segments (sortAsks asks))
        ((orders_to_curve_segments (sortBids bids)).length
          + (orders_to_curve_segments (sortAsks asks)).length) 0 0 0 0 0).2.1 dummySeg).price ≤ p := by
    rw [← hpeq]
    linarith
  have hqD : q ≤ ((orders_to_curve_segments (sortBids bids)).getD
      (intersectLoop (orders_to_curve_segments (sortBids bids))
        (orders_to_curve_segments (sortAsks asks))
        ((orders_to_curve_segments (sortBids bids)).length
          + (orders_to_curve_segments (sortAsks asks)).length) 0 0 0 0 0).1 dummySeg).q_max := by
    rw [← hqeq, hminq]
    exact min_le_left _ _
  have hqS : q ≤ ((orders_to_curve_segments (sortAsks asks)).getD
      (intersectLoop (orders_to_curve_segments (sortBids bids))
        (orders_to_curve_segments (sortAsks asks))
        ((orders_to_curve_segments (sortBids bids)).length
          + (orders_to_curve_segments (sortAsks asks)).length) 0 0 0 0 0).2.1 dummySeg).q_max := by
    rw [← hqeq, hminq]
    exact min_le_right _ _
  have hbids := @clear_side_bound (fun a b : Price => a < b)
    (fun a b => inferInstanceAs (Decidable (a < b)))
    (fun a => lt_irrefl a) (fun h₁ h₂ => lt_trans h₁ h₂)
    (sortBids bids) (sortBids_sorted bids) bid_price_predicate p q
    ((orders_to_curve_segments (sortBids bids)).getD (intersectLoop (orders_to_curve_segments (sortBids bids))
        (orders_to_curve_segments (sortAsks asks))
        ((orders_to_curve_segments (sortBids bids)).length
          + (orders_to_curve_segments (sortAsks asks)).length) 0 0 0 0 0).1 dummySeg)
    (getD_mem _ hiD) hqD
    (by
      intro o ho
      simp only [bid_price_predicate, decide_eq_true_eq]
      rcases ho with h1 | h1
      · rw [h1]
        exact hple
      · exact le_trans hple (le_of_lt h1))
  have hasks := @clear_side_bound (fun a b : Price => b < a)
    (fun a b => inferInstanceAs (Decidable (b < a)))
    (fun a => lt_irrefl a) (fun h₁ h₂ => lt_trans h₂ h₁)
    (sortAsks asks) (sortAsks_sorted asks) ask_price_predicate p q
    ((orders_to_curve_segments (sortAsks asks)).getD (intersectLoop (orders_to_curve_segments (sortBids bids))
        (orders_to_curve_segments (sortAsks asks))
        ((orders_to_curve_segments (sortBids bids)).length
          + (orders_to_curve_segments (sortAsks asks)).length) 0 0 0 0 0).2.1 dummySeg)
    (getD_mem _ hjS) hqS
    (by
      intro o ho
      simp only [ask_price_predicate, decide_eq_true_eq]
      rcases ho with h1 | h1
      · rw [h1]
        exact hsle
      · exact le_trans (le_of_lt h1) hsle)
  obtain ⟨hb1, hb2⟩ := hbids
  obtain ⟨ha1, ha2⟩ := hasks
  refine ⟨⟨?_, hb2, clear_orders_fst_length bid_price_predicate p (sortBids bids) q,
      clear_orders_partial_count bid_price_predicate p (sortBids bids) q⟩,
    ⟨?_, ha2, clear_orders_fst_length ask_price_predicate p (sortAsks asks) q,
      clear_orders_partial_count ask_price_predicate p (sortAsks asks) q⟩⟩
  · rw [hcb]
    omega
  · rw [hca]
    omega

theorem clear_volume_conservation_witness :
    (sumQty [] + (sumQty (sortBids [Order.new 5 20])
        - sumQty (clear_orders bid_price_predicate 4 (sortBids [Order.new 5 20]) 10).1) = 10
      ∧ sumQty (clear_orders bid_price_predicate 4 (sortBids [Order.new 5 20]) 10).1
          ≤ sumQty (sortBids [Order.new 5 20])
      ∧ (clear_orders bid_price_predicate 4 (sortBids [Order.new 5 20]) 10).1.length
          = (sortBids [Order.new 5 20]).length
      ∧ List.countP (fun ab : Order × Order => decide (ab.2.qty ≠ ab.1.qty))
          ((sortBids [Order.new 5 20]).zip
            (clear_orders bid_price_predicate 4 (sortBids [Order.new 5 20]) 10).1) ≤ 1)
    ∧ (sumQty [⟨10, 3, 0, true⟩] + (sumQty (sortAsks [Order.new 3 10])
        - sumQty (clear_orders ask_price_predicate 4 (sortAsks [Order.new 3 10]) 10).1) = 10
      ∧ sumQty (clear_orders ask_price_predicate 4 (sortAsks [Order.new 3 10]) 10).1
          ≤ sumQty (sortAsks [Order.new 3 10])
      ∧ (clear_orders ask_price_predicate 4 (sortAsks [Order.new 3 10]) 10).1.length
          = (sortAsks [Order.new 3 10]).length
      ∧ List.countP (fun ab : Order × Order => decide (ab.2.qty ≠ ab.1.qty))
          ((sortAsks [Order.new 3 10]).zip
            (clear_orders ask_price_predicate 4 (sortAsks [Order.new 3 10]) 10).1) ≤ 1) :=
  clear_volume_conservation [Order.new 5 20] [Order.new 3 10] 4 10 [] [⟨10, 3, 0, true⟩]
    [⟨10, 5, 0, false⟩] []
    (by norm_num [calculate_batch, sortBids, sortAsks, bidLE, askLE,
      orders_to_curve_segments, buildSegs, curveStep, insertAssoc, segLE,
      intersect_demand_supply, intersectLoop, clear_orders,
      bid_price_predicate, ask_price_predicate, dummySeg, Order.new])

end FBA
